import Mathlib

/-!
Verification of the CSV-to-length-indicated conversion pair from
`src/CSVLengthIndicated.cpp`.

The C++ file defines two functions:

* `convertCSVToLengthIndicated(csvFile, outputFile)` opens the input text
  file and the output binary file (the output stream is constructed with
  the default truncating open mode before the open check), and for every
  line obtained by `getline` writes the 8-byte native (little-endian)
  `size_t` line length followed by the raw line bytes.
* `readLengthIndicatedRecord(fileStream)` reads an 8-byte `size_t` length
  field, constructs a string of that many NUL bytes, and reads that many
  payload bytes into it.

The model below represents bytes as natural numbers, files as `List Nat`,
and an input stream as an explicit record of its contents, read position
and fail state.  The C++ `recordLength` variable is uninitialized when the
length-field read extracts nothing; the model makes those indeterminate
stack bytes an explicit `junk` parameter.
-/

namespace CSVLengthIndicated

/-- Little-endian encoding of `n` into `k` bytes, as `std::ofstream.write`
applied to the address of a `size_t` lays it out on the reference
(64-bit little-endian) platform. -/
def toLEBytes : Nat → Nat → List Nat
  | 0, _ => []
  | k + 1, n => n % 256 :: toLEBytes k (n / 256)

/-- Little-endian decoding of a byte list, as `std::ifstream.read` into the
address of a `size_t` reassembles it. -/
def fromLEBytes : List Nat → Nat
  | [] => 0
  | b :: bs => b + 256 * fromLEBytes bs

/-- The line sequence produced by the encoder's `while (getline(...))` loop:
bytes are consumed up to and excluding each newline byte 10; a final chunk
before end-of-file is still yielded even when no terminating newline
follows it, and a terminating newline at end-of-file yields no extra
(empty) line because the next `getline` extracts nothing and fails. -/
def getLines : List Nat → List (List Nat)
  | [] => []
  | b :: rest =>
    if b = 10 then [] :: getLines rest
    else
      match getLines rest with
      | [] => [[b]]
      | l :: ls => (b :: l) :: ls

/-- The bytes written by the encoder's loop body for a list of lines: for
each line, the 8-byte little-endian length followed by the raw line. -/
def encodeLines : List (List Nat) → List Nat
  | [] => []
  | l :: ls => toLEBytes 8 l.length ++ l ++ encodeLines ls

/-- A text source holding the given lines: each line followed by the
newline terminator byte 10. -/
def renderLines : List (List Nat) → List Nat
  | [] => []
  | l :: ls => l ++ 10 :: renderLines ls

/-- Observable result of `convertCSVToLengthIndicated`: whether the
open-failure branch was taken, and the contents of the output path after
the call (`none` = no file exists there). -/
structure ConvertResult where
  openError : Bool
  output : Option (List Nat)
deriving DecidableEq

/-- Model of `convertCSVToLengthIndicated`.  `input` is the contents of the
readable input path (`none` when it cannot be opened), `outputOpenable`
says whether the output path can be opened for writing, and `prior` is the
contents of the output path before the call.  The C++ code constructs the
truncating `std::ofstream` before checking `is_open`, so an openable output
file is emptied even when the input cannot be opened; if either open
fails the function prints an error and returns without writing records. -/
def convertCSVToLengthIndicated (input : Option (List Nat)) (outputOpenable : Bool)
    (prior : Option (List Nat)) : ConvertResult :=
  let afterOpen : Option (List Nat) := if outputOpenable then some [] else prior
  match input, outputOpenable with
  | some text, true => ⟨false, some (encodeLines (getLines text))⟩
  | _, _ => ⟨true, afterOpen⟩

/-- An `std::ifstream` over in-memory bytes: contents, read position, and
the fail/eof state (the code sets failbit and eofbit together, so one flag
suffices). -/
structure IStream where
  data : List Nat
  pos : Nat
  fail : Bool
deriving DecidableEq

/-- Model of `fileStream.read(buf, n)`: on an already-failed stream the
sentinel fails and nothing is read; otherwise the available bytes up to `n`
are extracted, and extracting fewer than `n` sets the fail state and
leaves the position at end of data. -/
def istreamRead (n : Nat) (s : IStream) : List Nat × IStream :=
  if s.fail then ([], s)
  else
    if ((s.data.drop s.pos).take n).length = n then
      ((s.data.drop s.pos).take n, ⟨s.data, s.pos + n, false⟩)
    else
      ((s.data.drop s.pos).take n, ⟨s.data, s.data.length, true⟩)

/-- Model of `readLengthIndicatedRecord`.  It reads 8 bytes into
`recordLength`; bytes not overwritten by a short read keep their
indeterminate stack value, modelled by the corresponding bytes of `junk`.
It then builds a string of `recordLength` NUL bytes and reads the payload
into its front, so a short payload read returns the payload padded with
NUL bytes to the declared length. -/
def readLengthIndicatedRecord (junk : Nat) (s : IStream) : List Nat × IStream :=
  let r1 := istreamRead 8 s
  let recordLength := fromLEBytes (r1.1 ++ (toLEBytes 8 junk).drop r1.1.length)
  let r2 := istreamRead recordLength r1.2
  (r2.1 ++ List.replicate (recordLength - r2.1.length) 0, r2.2)

/-- The caller loop the spec describes: call `readLengthIndicatedRecord`
repeatedly, checking the stream state after each read, and stop (discarding
the last returned value) once the stream reports failure.  `fuel` bounds
the number of iterations. -/
def readAllRecords (junk : Nat) : Nat → IStream → List (List Nat)
  | 0, _ => []
  | fuel + 1, s =>
    let r := readLengthIndicatedRecord junk s
    if r.2.fail then [] else r.1 :: readAllRecords junk fuel r.2

/-! ### Helper lemmas -/

lemma length_toLEBytes (k n : Nat) : (toLEBytes k n).length = k := by
  induction k generalizing n with
  | zero => rfl
  | succ k ih => simp [toLEBytes, ih]

lemma fromLEBytes_toLEBytes (k n : Nat) (h : n < 256 ^ k) :
    fromLEBytes (toLEBytes k n) = n := by
  induction k generalizing n with
  | zero =>
    simp only [pow_zero, Nat.lt_one_iff] at h
    subst h; rfl
  | succ k ih =>
    have hdiv : n / 256 < 256 ^ k := by
      have hmul : n < 256 * 256 ^ k := by
        calc n < 256 ^ (k + 1) := h
        _ = 256 * 256 ^ k := by rw [pow_succ']
      exact Nat.div_lt_of_lt_mul hmul
    simp only [toLEBytes, fromLEBytes, ih (n / 256) hdiv]
    exact Nat.mod_add_div n 256

lemma pow256_eight : (256 : Nat) ^ 8 = 2 ^ 64 := by norm_num

lemma istreamRead_success (n : Nat) (s : IStream)
    (hfail : s.fail = false) (hlen : ((s.data.drop s.pos).take n).length = n) :
    istreamRead n s = ((s.data.drop s.pos).take n, ⟨s.data, s.pos + n, false⟩) := by
  simp [istreamRead, hfail, hlen]

lemma istreamRead_short (n : Nat) (s : IStream)
    (hfail : s.fail = false) (hlen : ((s.data.drop s.pos).take n).length ≠ n) :
    istreamRead n s = ((s.data.drop s.pos).take n, ⟨s.data, s.data.length, true⟩) := by
  unfold istreamRead
  rw [hfail]
  simp only [Bool.false_eq_true, if_false]
  rw [if_neg hlen]

lemma istreamRead_of_fail (n : Nat) (s : IStream) (hfail : s.fail = true) :
    istreamRead n s = ([], s) := by
  simp [istreamRead, hfail]

/-- Behavior of one decode call on a stream positioned before a well-formed
length field that declares no more bytes than remain. -/
lemma readRecord_spec (s : IStream) (L : Nat) (rest : List Nat) (junk : Nat)
    (hfail : s.fail = false)
    (hdata : s.data.drop s.pos = toLEBytes 8 L ++ rest)
    (hL : L < 2 ^ 64) (hrest : L ≤ rest.length) :
    readLengthIndicatedRecord junk s = (rest.take L, ⟨s.data, s.pos + 8 + L, false⟩) := by
  have h8 : (toLEBytes 8 L).length = 8 := length_toLEBytes 8 L
  have htake : (s.data.drop s.pos).take 8 = toLEBytes 8 L := by
    have hleft := List.take_left (toLEBytes 8 L) rest
    rw [h8] at hleft
    rw [hdata, hleft]
  have hlen8 : ((s.data.drop s.pos).take 8).length = 8 := by rw [htake, h8]
  have hr1 : istreamRead 8 s = (toLEBytes 8 L, ⟨s.data, s.pos + 8, false⟩) := by
    rw [istreamRead_success 8 s hfail hlen8, htake]
  have hdrop8 : s.data.drop (s.pos + 8) = rest := by
    have hdd : s.data.drop (s.pos + 8) = (s.data.drop s.pos).drop 8 := by
      rw [List.drop_drop, Nat.add_comm]
    have hleft := List.drop_left (toLEBytes 8 L) rest
    rw [h8] at hleft
    rw [hdd, hdata, hleft]
  have hdropjunk : (toLEBytes 8 junk).drop (toLEBytes 8 L).length = [] := by
    apply List.drop_eq_nil_of_le
    rw [length_toLEBytes, h8]
  have hRL : fromLEBytes (toLEBytes 8 L ++ (toLEBytes 8 junk).drop (toLEBytes 8 L).length)
      = L := by
    rw [hdropjunk, List.append_nil]
    exact fromLEBytes_toLEBytes 8 L (by rw [pow256_eight]; exact hL)
  have htakeL : ((rest.take L)).length = L := by
    rw [List.length_take]
    omega
  have hr2 : istreamRead L ⟨s.data, s.pos + 8, false⟩
      = (rest.take L, ⟨s.data, s.pos + 8 + L, false⟩) := by
    have hs := istreamRead_success L ⟨s.data, s.pos + 8, false⟩ rfl
      (by simpa [hdrop8] using htakeL)
    simpa [hdrop8] using hs
  simp only [readLengthIndicatedRecord, hr1, hRL, hr2, htakeL, Nat.sub_self,
    List.replicate_zero, List.append_nil]

/-- A decode call on a good stream with fewer than a full length field
remaining fails, leaving the position at end of data. -/
lemma readRecord_short_of_eof (s : IStream) (junk : Nat)
    (hfail : s.fail = false) (hshort : s.data.length - s.pos < 8) :
    (readLengthIndicatedRecord junk s).2 = ⟨s.data, s.data.length, true⟩ := by
  have hlen : ((s.data.drop s.pos).take 8).length ≠ 8 := by
    rw [List.length_take, List.length_drop]
    omega
  have hr1 := istreamRead_short 8 s hfail hlen
  simp only [readLengthIndicatedRecord, hr1]
  rw [istreamRead_of_fail _ _ rfl]

lemma getLines_cons_ten (rest : List Nat) : getLines (10 :: rest) = [] :: getLines rest := rfl

lemma getLines_cons_ne (b : Nat) (rest : List Nat) (hb : b ≠ 10) :
    getLines (b :: rest) = match getLines rest with
      | [] => [[b]]
      | l :: ls => (b :: l) :: ls := by
  simp only [getLines]
  rw [if_neg hb]

lemma getLines_append_newline (l rest : List Nat) (h : 10 ∉ l) :
    getLines (l ++ 10 :: rest) = l :: getLines rest := by
  induction l with
  | nil => simp [getLines]
  | cons b l ih =>
    have hb : b ≠ 10 := fun hb => h (by simp [hb])
    have hl : 10 ∉ l := fun hx => h (List.mem_cons_of_mem _ hx)
    simp [getLines, hb, ih hl]

lemma getLines_renderLines (ls : List (List Nat)) (h : ∀ l ∈ ls, 10 ∉ l) :
    getLines (renderLines ls) = ls := by
  induction ls with
  | nil => rfl
  | cons l ls ih =>
    have hl : 10 ∉ l := h l (List.mem_cons_self l ls)
    have hls : ∀ x ∈ ls, 10 ∉ x := fun x hx => h x (List.mem_cons_of_mem _ hx)
    rw [renderLines, getLines_append_newline l _ hl, ih hls]

/-- Appending a final newline to a nonempty text whose last byte is not a
newline does not change its line decomposition: the final unterminated
chunk is yielded either way. -/
lemma getLines_append_term (text : List Nat) (hne : text ≠ [])
    (hlast : text.getLast? ≠ some 10) :
    getLines (text ++ [10]) = getLines text := by
  induction text with
  | nil => exact absurd rfl hne
  | cons b t ih =>
    cases t with
    | nil =>
      have hb : b ≠ 10 := by simpa using hlast
      simp [getLines, hb]
    | cons c t2 =>
      have hlast2 : (c :: t2).getLast? ≠ some 10 := by
        rwa [List.getLast?_cons_cons] at hlast
      have ih2 := ih (by simp) hlast2
      by_cases hb : b = 10
      · subst hb
        rw [List.cons_append, getLines_cons_ten, getLines_cons_ten, ih2]
      · rw [List.cons_append, getLines_cons_ne b _ hb, getLines_cons_ne b _ hb, ih2]

/-- Decoding an encoded line list positioned right after an arbitrary
already-consumed region yields the lines back, for any fuel exceeding the
line count. -/
lemma readAllRecords_encodeLines (junk : Nat) (ls : List (List Nat)) :
    ∀ (pre : List Nat) (fuel : Nat), (∀ l ∈ ls, l.length < 2 ^ 64) →
      ls.length < fuel →
      readAllRecords junk fuel ⟨pre ++ encodeLines ls, pre.length, false⟩ = ls := by
  induction ls with
  | nil =>
    intro pre fuel _ hfuel
    obtain ⟨f, rfl⟩ : ∃ f, fuel = f + 1 := ⟨fuel - 1, by omega⟩
    have hfail : (readLengthIndicatedRecord junk
        ⟨pre ++ encodeLines [], pre.length, false⟩).2.fail = true := by
      rw [readRecord_short_of_eof]
      · rfl
      · simp [encodeLines]
    simp [readAllRecords, hfail]
  | cons l ls ih =>
    intro pre fuel hlen hfuel
    obtain ⟨f, rfl⟩ : ∃ f, fuel = f + 1 := ⟨fuel - 1, by omega⟩
    have hL : l.length < 2 ^ 64 := hlen l (List.mem_cons_self l ls)
    have hdata : (pre ++ encodeLines (l :: ls)).drop pre.length
        = toLEBytes 8 l.length ++ (l ++ encodeLines ls) := by
      rw [List.drop_left, encodeLines, List.append_assoc]
    have htake : (l ++ encodeLines ls).take l.length = l := List.take_left l _
    have hstep : readLengthIndicatedRecord junk
        ⟨pre ++ encodeLines (l :: ls), pre.length, false⟩
        = (l, ⟨pre ++ encodeLines (l :: ls), pre.length + 8 + l.length, false⟩) := by
      have h0 := readRecord_spec ⟨pre ++ encodeLines (l :: ls), pre.length, false⟩
        l.length (l ++ encodeLines ls) junk rfl hdata hL (by simp)
      rw [htake] at h0
      exact h0
    have hpre2 : pre ++ encodeLines (l :: ls)
        = pre ++ toLEBytes 8 l.length ++ l ++ encodeLines ls := by
      rw [encodeLines]
      simp [List.append_assoc]
    have hpos2 : pre.length + 8 + l.length
        = (pre ++ toLEBytes 8 l.length ++ l).length := by
      simp [List.length_append, length_toLEBytes]
      omega
    have hrec := ih (pre ++ toLEBytes 8 l.length ++ l) f
      (fun x hx => hlen x (List.mem_cons_of_mem _ hx)) (by simp at hfuel ⊢; omega)
    rw [← hpre2] at hrec
    rw [← hpos2] at hrec
    simp only [readAllRecords, hstep]
    rw [if_neg (by simp)]
    rw [hrec]

/-! ### Claim theorems -/

/-- C1: for every sequence of text lines (empty lines and embedded commas
included, each line not containing the terminator byte and of realistic
length), encoding a text source holding those lines with
`convertCSVToLengthIndicated` and then calling `readLengthIndicatedRecord`
repeatedly until end-of-stream yields back exactly those lines in order. -/
theorem roundTrip_encode_decode (lines : List (List Nat)) (junk fuel : Nat)
    (prior : Option (List Nat))
    (h10 : ∀ l ∈ lines, 10 ∉ l) (hlen : ∀ l ∈ lines, l.length < 2 ^ 64)
    (hfuel : lines.length < fuel) :
    ∃ data, (convertCSVToLengthIndicated (some (renderLines lines)) true prior).output
        = some data ∧
      readAllRecords junk fuel ⟨data, 0, false⟩ = lines := by
  refine ⟨encodeLines lines, ?_, ?_⟩
  · simp [convertCSVToLengthIndicated, getLines_renderLines lines h10]
  · have h := readAllRecords_encodeLines junk lines [] fuel hlen hfuel
    simpa using h

theorem roundTrip_encode_decode_witness :
    (∀ l ∈ [[97], ([] : List Nat), [98, 44, 99]], 10 ∉ l) ∧
    (∀ l ∈ [[97], ([] : List Nat), [98, 44, 99]], l.length < 2 ^ 64) ∧
    (∃ data,
      (convertCSVToLengthIndicated (some (renderLines [[97], [], [98, 44, 99]]))
          true none).output = some data ∧
      readAllRecords 0 4 ⟨data, 0, false⟩ = [[97], [], [98, 44, 99]]) :=
  ⟨by decide, by decide,
    roundTrip_encode_decode [[97], [], [98, 44, 99]] 0 4 none (by decide) (by decide)
      (by decide)⟩

/-- C2: on a stream positioned at the start of a well-formed record whose
length field is `L`, `readLengthIndicatedRecord` returns a payload of
exactly `L` bytes and advances the position by exactly the length field
width (8) plus `L`, leaving the stream good. -/
theorem readRecord_length_invariant (s : IStream) (L : Nat) (rest : List Nat) (junk : Nat)
    (hfail : s.fail = false)
    (hdata : s.data.drop s.pos = toLEBytes 8 L ++ rest)
    (hL : L < 2 ^ 64) (hrest : L ≤ rest.length) :
    (readLengthIndicatedRecord junk s).1.length = L ∧
    (readLengthIndicatedRecord junk s).2.pos = s.pos + 8 + L ∧
    (readLengthIndicatedRecord junk s).2.fail = false := by
  rw [readRecord_spec s L rest junk hfail hdata hL hrest]
  refine ⟨?_, rfl, rfl⟩
  rw [List.length_take]
  omega

theorem readRecord_length_invariant_witness :
    ((⟨[2, 0, 0, 0, 0, 0, 0, 0, 65, 66], 0, false⟩ : IStream).data.drop 0
        = toLEBytes 8 2 ++ [65, 66]) ∧
    ((readLengthIndicatedRecord 0 ⟨[2, 0, 0, 0, 0, 0, 0, 0, 65, 66], 0, false⟩).1.length = 2 ∧
      (readLengthIndicatedRecord 0 ⟨[2, 0, 0, 0, 0, 0, 0, 0, 65, 66], 0, false⟩).2.pos
        = 0 + 8 + 2 ∧
      (readLengthIndicatedRecord 0 ⟨[2, 0, 0, 0, 0, 0, 0, 0, 65, 66], 0, false⟩).2.fail
        = false) :=
  ⟨by decide,
    readRecord_length_invariant ⟨[2, 0, 0, 0, 0, 0, 0, 0, 65, 66], 0, false⟩ 2 [65, 66] 0
      rfl (by decide) (by decide) (by decide)⟩

/-- C3: evaluation of the code at a truncated input.  On a stream whose
length field declares 5 payload bytes while only 2 remain, the code does
NOT report a distinct truncation status: it returns a string of the full
declared length (the 2 available bytes padded with NUL bytes) and sets the
same fail state that a clean end-of-stream sets, as the second conjunct
shows on an empty stream. -/
theorem readRecord_truncation_behavior :
    readLengthIndicatedRecord 0 ⟨[5, 0, 0, 0, 0, 0, 0, 0, 97, 98], 0, false⟩
      = ([97, 98, 0, 0, 0], ⟨[5, 0, 0, 0, 0, 0, 0, 0, 97, 98], 10, true⟩) ∧
    (readLengthIndicatedRecord 0 ⟨[], 0, false⟩).2.fail = true := by
  constructor
  · rfl
  · rfl

/-- C4: whenever the input cannot be opened for reading or the output
cannot be opened for writing, the conversion reports the open failure and
writes no records: the output path afterwards holds either its prior
contents (output unopenable) or the empty file left by the truncating
open (output openable), so no record bytes are written and nothing is
appended to an existing file. -/
theorem convert_open_failure (input : Option (List Nat)) (oo : Bool)
    (prior : Option (List Nat)) (h : input = none ∨ oo = false) :
    (convertCSVToLengthIndicated input oo prior).openError = true ∧
    (convertCSVToLengthIndicated input oo prior).output
      = (if oo then some [] else prior) := by
  rcases h with h | h
  · subst h
    cases oo <;> simp [convertCSVToLengthIndicated]
  · subst h
    cases input <;> simp [convertCSVToLengthIndicated]

theorem convert_open_failure_witness :
    ((none : Option (List Nat)) = none ∨ false = false) ∧
    ((convertCSVToLengthIndicated none false (some [1, 2])).openError = true ∧
      (convertCSVToLengthIndicated none false (some [1, 2])).output
        = (if false then some [] else some [1, 2])) :=
  ⟨Or.inl rfl, convert_open_failure none false (some [1, 2]) (Or.inl rfl)⟩

/-- C5 counterexample: the claim as stated is false.  The line "a,b,c"
holds 5 bytes (97,44,98,44,99), so the code writes a length field of 5 and
a file of 8 + 5 = 13 bytes: the output's length is not 8 + 3 and its
length field does not decode to 3. -/
theorem convert_single_record_counterexample :
    (convertCSVToLengthIndicated (some [97, 44, 98, 44, 99, 10]) true none).output
      = some ([5, 0, 0, 0, 0, 0, 0, 0] ++ [97, 44, 98, 44, 99]) ∧
    (([5, 0, 0, 0, 0, 0, 0, 0] ++ [97, 44, 98, 44, 99] : List Nat)).length ≠ 8 + 3 ∧
    fromLEBytes [5, 0, 0, 0, 0, 0, 0, 0] ≠ 3 := by
  refine ⟨rfl, by decide, by decide⟩

/-- C5 amended: encoding the single line "a,b,c" (bytes 97,44,98,44,99
followed by a newline) produces exactly the 8-byte length field holding 5
— the byte length of the line — followed by the payload bytes
97,44,98,44,99 in order: a file of 8 + 5 bytes. -/
theorem convert_single_record (prior : Option (List Nat)) :
    (convertCSVToLengthIndicated (some [97, 44, 98, 44, 99, 10]) true prior).output
      = some (toLEBytes 8 5 ++ [97, 44, 98, 44, 99]) ∧
    (toLEBytes 8 5 ++ [97, 44, 98, 44, 99]).length = 8 + 5 ∧
    fromLEBytes (toLEBytes 8 5) = 5 := by
  refine ⟨rfl, by decide, by decide⟩

/-- C6: encoding an empty input produces an empty output file, and one
decode call on the empty stream immediately sets the fail/eof state, so
the caller loop yields no records at all. -/
theorem convert_empty_input (prior : Option (List Nat)) (junk fuel : Nat) :
    (convertCSVToLengthIndicated (some []) true prior).output = some [] ∧
    (readLengthIndicatedRecord junk ⟨[], 0, false⟩).2.fail = true ∧
    readAllRecords junk fuel ⟨[], 0, false⟩ = [] := by
  refine ⟨rfl, rfl, ?_⟩
  cases fuel with
  | zero => rfl
  | succ f =>
    have hfail : (readLengthIndicatedRecord junk ⟨[], 0, false⟩).2.fail = true := rfl
    simp [readAllRecords, hfail]

/-- C7: the encoder strips each line's terminator: a text source holding
the given lines with a terminator byte after each one is encoded as, for
every line, a length field equal to the line's byte length WITHOUT the
terminator followed by exactly the line's bytes (`encodeLines` writes
`toLEBytes 8 l.length ++ l`; no terminator byte is written or counted). -/
theorem encoder_strips_terminator (lines : List (List Nat)) (prior : Option (List Nat))
    (h10 : ∀ l ∈ lines, 10 ∉ l) :
    (convertCSVToLengthIndicated (some (renderLines lines)) true prior).output
      = some (encodeLines lines) := by
  simp [convertCSVToLengthIndicated, getLines_renderLines lines h10]

theorem encoder_strips_terminator_witness :
    (∀ l ∈ [[97, 98]], 10 ∉ l) ∧
    (convertCSVToLengthIndicated (some (renderLines [[97, 98]])) true none).output
      = some (encodeLines [[97, 98]]) :=
  ⟨by decide, encoder_strips_terminator [[97, 98]] none (by decide)⟩

/-- C8: on a good stream with fewer than a full 8-byte length field
remaining, `readLengthIndicatedRecord` leaves the stream in the failed
(end-of-stream) state, which the caller detects after the read, and the
caller loop treats it as no more records rather than an error: it yields
nothing. -/
theorem readRecord_end_of_stream (s : IStream) (junk fuel : Nat)
    (hfail : s.fail = false) (hshort : s.data.length - s.pos < 8) :
    (readLengthIndicatedRecord junk s).2.fail = true ∧
    readAllRecords junk fuel s = [] := by
  have h2 := readRecord_short_of_eof s junk hfail hshort
  constructor
  · rw [h2]
  · cases fuel with
    | zero => rfl
    | succ f => simp [readAllRecords, h2]

theorem readRecord_end_of_stream_witness :
    ((⟨[1, 2, 3], 0, false⟩ : IStream).fail = false) ∧
    ((⟨[1, 2, 3], 0, false⟩ : IStream).data.length - 0 < 8) ∧
    ((readLengthIndicatedRecord 0 ⟨[1, 2, 3], 0, false⟩).2.fail = true ∧
      readAllRecords 0 5 ⟨[1, 2, 3], 0, false⟩ = []) :=
  ⟨rfl, by decide, readRecord_end_of_stream ⟨[1, 2, 3], 0, false⟩ 0 5 rfl (by decide)⟩

/-- C9: when the input path cannot be opened but the output path can, the
truncating output open still runs before the check, so whatever the output
file previously held, the call leaves it in existence and empty while
reporting the open failure and writing no records. -/
theorem convert_truncates_output_on_input_failure (prior : Option (List Nat)) :
    convertCSVToLengthIndicated none true prior = ⟨true, some []⟩ := rfl

/-- C10: a nonempty input text whose final line lacks the trailing
terminator encodes byte-for-byte identically to the same text with the
terminator appended: the final line is still encoded as a record. -/
theorem convert_final_line_no_terminator (text : List Nat) (oo : Bool)
    (prior : Option (List Nat))
    (hne : text ≠ []) (hlast : text.getLast? ≠ some 10) :
    convertCSVToLengthIndicated (some (text ++ [10])) oo prior
      = convertCSVToLengthIndicated (some text) oo prior := by
  cases oo with
  | false => rfl
  | true => simp [convertCSVToLengthIndicated, getLines_append_term text hne hlast]

theorem convert_final_line_no_terminator_witness :
    (([97, 44, 98] : List Nat) ≠ []) ∧
    (([97, 44, 98] : List Nat).getLast? ≠ some 10) ∧
    convertCSVToLengthIndicated (some ([97, 44, 98] ++ [10])) true none
      = convertCSVToLengthIndicated (some [97, 44, 98]) true none :=
  ⟨by decide, by decide,
    convert_final_line_no_terminator [97, 44, 98] true none (by decide) (by decide)⟩

end CSVLengthIndicated
